import Mathlib

set_option maxHeartbeats 1000000

namespace GenSummary

/-- JavaScript strings are embedded as lists of Unicode code points.
This predicate is the JS whitespace class (the regex s-escape and the
class used by String.prototype.trim). -/
def isJsSpace (c : Char) : Bool :=
  c.toNat == 32 || c.toNat == 9 || c.toNat == 10 || c.toNat == 13 || c.toNat == 11 ||
  c.toNat == 12 || c.toNat == 160 || c.toNat == 5760 ||
  (decide (8192 ≤ c.toNat) && decide (c.toNat ≤ 8202)) ||
  c.toNat == 8232 || c.toNat == 8233 || c.toNat == 8239 || c.toNat == 8287 ||
  c.toNat == 12288 || c.toNat == 65279

/-- JS line terminators (where a multiline-flag caret matches after). -/
def isLineTermChar (c : Char) : Bool :=
  c == '\n' || c == '\r' || c == ' ' || c == ' '

/-- The regex w-escape: ASCII letters, digits and underscore. -/
def isWordChar (c : Char) : Bool :=
  (decide (65 ≤ c.toNat) && decide (c.toNat ≤ 90)) ||
  (decide (97 ≤ c.toNat) && decide (c.toNat ≤ 122)) ||
  (decide (48 ≤ c.toNat) && decide (c.toNat ≤ 57)) ||
  c == '_'

/-- ASCII letters only (the first character of a YAML key in the upsert filter). -/
def isAsciiLetterChar (c : Char) : Bool :=
  (decide (65 ≤ c.toNat) && decide (c.toNat ≤ 90)) ||
  (decide (97 ≤ c.toNat) && decide (c.toNat ≤ 122))

/-- ASCII digits. -/
def isDigitChar (c : Char) : Bool :=
  decide (48 ≤ c.toNat) && decide (c.toNat ≤ 57)

/-- ASCII lower-casing of one character (JS toLowerCase restricted to ASCII,
which is all the config parsers compare against). -/
def asciiLowerChar (c : Char) : Char :=
  if h : 65 ≤ c.toNat ∧ c.toNat ≤ 90 then
    { val := ⟨⟨c.toNat + 32, by omega⟩⟩, valid := Or.inl (show c.toNat + 32 < 55296 by omega) }
  else c

/-- ASCII lower-casing of a string. -/
def asciiLower (s : List Char) : List Char := s.map asciiLowerChar

/-- Remove the longest suffix of characters satisfying p. -/
def dropTrailingWhile (p : Char → Bool) (l : List Char) : List Char :=
  (l.reverse.dropWhile p).reverse

/-- JS String.prototype.trim. -/
def trimJs (l : List Char) : List Char :=
  dropTrailingWhile isJsSpace (l.dropWhile isJsSpace)

/-- JS String.prototype.trimStart. -/
def trimStartJs (l : List Char) : List Char := l.dropWhile isJsSpace

/-- JS s.endsWith(c) for a one-character suffix c. -/
def jsEndsWith (l : List Char) (c : Char) : Bool := l.getLast? == some c

/-- JS s.split of a string on the one-character separator newline. -/
def splitNl : List Char → List (List Char)
  | [] => [[]]
  | c :: rest =>
    if c = '\n' then [] :: splitNl rest
    else
      match splitNl rest with
      | l :: ls => (c :: l) :: ls
      | [] => [[c]]

/-- JS s.split on the regex of an optional carriage return then a newline. -/
def splitCRLF : List Char → List (List Char)
  | [] => [[]]
  | '\r' :: '\n' :: rest => [] :: splitCRLF rest
  | '\n' :: rest => [] :: splitCRLF rest
  | c :: rest =>
    match splitCRLF rest with
    | l :: ls => (c :: l) :: ls
    | [] => [[c]]

/-- JS array.join with a one-character separator. -/
def joinSep (sep : Char) : List (List Char) → List Char
  | [] => []
  | [l] => l
  | l :: rest => l ++ sep :: joinSep sep rest

/-- JS array.join of lines with a newline separator. -/
def joinNl : List (List Char) → List Char := joinSep '\n'

/-- First successful application of f over a candidate list (used for the
backtracking alternatives of a regex matcher). -/
def firstSome {α β : Type} (f : α → Option β) : List α → Option β
  | [] => none
  | a :: rest =>
    match f a with
    | some b => some b
    | none => firstSome f rest

/-- Strip an exact prefix, returning the remainder. -/
def stripPrefixList : List Char → List Char → Option (List Char)
  | [], s => some s
  | _ :: _, [] => none
  | p :: ps, c :: cs => if c = p then stripPrefixList ps cs else none

/-- Strip an ASCII-case-insensitive prefix (the prefix argument is given in
lower case), returning the remainder. -/
def stripPrefixCI : List Char → List Char → Option (List Char)
  | [], s => some s
  | _ :: _, [] => none
  | p :: ps, c :: cs => if asciiLowerChar c = p then stripPrefixCI ps cs else none

/-- Replace every non-overlapping leftmost match, scanning left to right the
way a JS global replace does. The step function inspects the text at the
current position: some (out, rest) means the pattern matched here, consuming
up to rest (always at least one character for the steps used below) and
producing out. Fuel bounds the number of scan positions; callers pass the
text length plus one, which suffices because every position either consumes
a match or advances one character. -/
def scanReplace (step : List Char → Option (List Char × List Char)) :
    Nat → List Char → List Char
  | _, [] => []
  | 0, s => s
  | fuel + 1, c :: rest =>
    match step (c :: rest) with
    | some (out, rest') => out ++ scanReplace step fuel rest'
    | none => c :: scanReplace step fuel rest

/-- Like scanReplace but for multiline-anchored patterns: the Bool state says
whether the current position is a line start (string start or just after a
line terminator), and a successful step reports whether the position after
the match is a line start. -/
def scanReplaceLS (step : List Char → Option (List Char × Bool × List Char)) :
    Bool → Nat → List Char → List Char
  | _, _, [] => []
  | _, 0, s => s
  | atStart, fuel + 1, c :: rest =>
    if atStart then
      match step (c :: rest) with
      | some (out, st, rest') => out ++ scanReplaceLS step st fuel rest'
      | none => c :: scanReplaceLS step (isLineTermChar c) fuel rest
    else c :: scanReplaceLS step (isLineTermChar c) fuel rest

/-- Scan past the first closing triple backtick, if any. -/
def findFencedEnd : List Char → Option (List Char)
  | '`' :: '`' :: '`' :: rest => some rest
  | _ :: rest => findFencedEnd rest
  | [] => none

/-- One match of the fenced-code-block regex (triple backtick, lazy any, triple
backtick), replaced by the empty string. -/
def fencedStep (s : List Char) : Option (List Char × List Char) :=
  match s with
  | '`' :: '`' :: '`' :: rest => (findFencedEnd rest).map (fun r => ([], r))
  | _ => none

/-- Scan past the first backtick, if any. -/
def scanPastTick : List Char → Option (List Char)
  | '`' :: rest => some rest
  | _ :: rest => scanPastTick rest
  | [] => none

/-- One match of the inline-code regex (backtick, non-backticks, backtick),
replaced by the empty string. -/
def inlineCodeStep (s : List Char) : Option (List Char × List Char) :=
  match s with
  | '`' :: rest => (scanPastTick rest).map (fun r => ([], r))
  | _ => none

/-- Scan past the first closing square bracket, if any. -/
def scanPastRBracket : List Char → Option (List Char)
  | ']' :: rest => some rest
  | _ :: rest => scanPastRBracket rest
  | [] => none

/-- Scan past the first closing parenthesis, if any. -/
def scanPastRParen : List Char → Option (List Char)
  | ')' :: rest => some rest
  | _ :: rest => scanPastRParen rest
  | [] => none

/-- Match an opening parenthesis, one or more non-closing-parenthesis
characters, and a closing parenthesis, returning the remainder. -/
def parenTargetAfter : List Char → Option (List Char)
  | '(' :: ')' :: _ => none
  | '(' :: _ :: rest => scanPastRParen rest
  | _ => none

/-- One match of the markdown-image regex, replaced by the empty string. -/
def imageStep (s : List Char) : Option (List Char × List Char) :=
  match s with
  | '!' :: '[' :: rest =>
    match scanPastRBracket rest with
    | some r1 => (parenTargetAfter r1).map (fun r2 => ([], r2))
    | none => none
  | _ => none

/-- Collect the bracketed link text (one or more non-bracket characters)
up to the closing square bracket. -/
def captureToRBracket (acc : List Char) : List Char → Option (List Char × List Char)
  | ']' :: rest => some (acc.reverse, rest)
  | c :: rest => captureToRBracket (c :: acc) rest
  | [] => none

/-- One match of the markdown-link regex, replaced by its visible text. -/
def linkStep (s : List Char) : Option (List Char × List Char) :=
  match s with
  | '[' :: ']' :: _ => none
  | '[' :: rest =>
    match captureToRBracket [] rest with
    | some (txt, r1) => (parenTargetAfter r1).map (fun r2 => (txt, r2))
    | none => none
  | _ => none

/-- One match of the bold/italic star regex (one to three stars, one or more
non-star characters, one to three stars), replaced by the inner text. More
than three leading stars cannot match here because the quantifier is capped
at three and the inner class excludes stars. -/
def boldStep (s : List Char) : Option (List Char × List Char) :=
  match s with
  | '*' :: _ =>
    let n := (s.takeWhile (fun c => c == '*')).length
    let rest := s.dropWhile (fun c => c == '*')
    if n ≤ 3 then
      match rest with
      | [] => none
      | _ :: _ =>
        let content := rest.takeWhile (fun c => !(c == '*'))
        let r2 := rest.dropWhile (fun c => !(c == '*'))
        match r2 with
        | [] => none
        | _ :: _ =>
          let m := (r2.takeWhile (fun c => c == '*')).length
          let r3 := r2.dropWhile (fun c => c == '*')
          some (content, List.replicate (m - min 3 m) '*' ++ r3)
    else none
  | _ => none

/-- One match of the double-underscore regex, replaced by the inner text. -/
def under2Step (s : List Char) : Option (List Char × List Char) :=
  match s with
  | '_' :: '_' :: rest =>
    let content := rest.takeWhile (fun c => !(c == '_'))
    match content, rest.dropWhile (fun c => !(c == '_')) with
    | [], _ => none
    | _ :: _, '_' :: '_' :: r => some (content, r)
    | _ :: _, _ => none
  | _ => none

/-- One match of the single-underscore regex, replaced by the inner text. -/
def under1Step (s : List Char) : Option (List Char × List Char) :=
  match s with
  | '_' :: rest =>
    let content := rest.takeWhile (fun c => !(c == '_'))
    match content, rest.dropWhile (fun c => !(c == '_')) with
    | [], _ => none
    | _ :: _, '_' :: r => some (content, r)
    | _ :: _, _ => none
  | _ => none

/-- Scan past the first closing angle bracket, if any. -/
def scanPastGt : List Char → Option (List Char)
  | '>' :: rest => some rest
  | _ :: rest => scanPastGt rest
  | [] => none

/-- One match of the HTML-tag regex (angle bracket, one or more non-closing
characters, closing angle bracket), replaced by the empty string. -/
def tagStep (s : List Char) : Option (List Char × List Char) :=
  match s with
  | '<' :: '>' :: _ => none
  | '<' :: _ :: rest => (scanPastGt rest).map (fun r => ([], r))
  | _ => none

/-- One match of the newline-run regex (optional carriage return then one or
more newlines), replaced by a single space. -/
def newlineRunStep (s : List Char) : Option (List Char × List Char) :=
  match s with
  | '\r' :: '\n' :: rest => some ([' '], rest.dropWhile (fun c => c == '\n'))
  | '\n' :: rest => some ([' '], rest.dropWhile (fun c => c == '\n'))
  | _ => none

/-- One match of the whitespace-run regex (two or more whitespace characters),
replaced by a single space. -/
def spaceRunStep (s : List Char) : Option (List Char × List Char) :=
  match s with
  | c :: d :: rest =>
    if isJsSpace c && isJsSpace d then some ([' '], rest.dropWhile isJsSpace) else none
  | _ => none

/-- One match of the full-width-comma-run regex (two or more), replaced by a
single full-width comma. -/
def commaRunStep (s : List Char) : Option (List Char × List Char) :=
  match s with
  | c :: d :: rest =>
    if c == '，' && d == '，' then some (['，'], rest.dropWhile (fun e => e == '，')) else none
  | _ => none

/-- Scan past the first newline, if any. -/
def scanPastNewline : List Char → Option (List Char)
  | '\n' :: rest => some rest
  | _ :: rest => scanPastNewline rest
  | [] => none

/-- One line-start match of the heading regex (spaces or tabs, one or more
hash marks, the rest of the line, the newline), removed whole. -/
def headingStep (s : List Char) : Option (List Char × Bool × List Char) :=
  match s.dropWhile (fun c => c == ' ' || c == '\t') with
  | '#' :: r => (scanPastNewline r).map (fun rest => ([], true, rest))
  | _ => none

/-- One line-start match of the blockquote-marker regex (an angle quote then
one or more whitespace characters, which may include line terminators),
removed. -/
def bqStep (s : List Char) : Option (List Char × Bool × List Char) :=
  match s with
  | '>' :: d :: rest =>
    if isJsSpace d then
      let run := (d :: rest).takeWhile isJsSpace
      some ([], isLineTermChar (run.getLastD ' '), (d :: rest).dropWhile isJsSpace)
    else none
  | _ => none

/-- One line-start match of the list-marker regex (spaces or tabs, a dash,
star or plus, then one or more whitespace characters), removed. -/
def listMarkStep (s : List Char) : Option (List Char × Bool × List Char) :=
  match s.dropWhile (fun c => c == ' ' || c == '\t') with
  | m :: d :: rest =>
    if (m == '-' || m == '*' || m == '+') && isJsSpace d then
      let run := (d :: rest).takeWhile isJsSpace
      some ([], isLineTermChar (run.getLastD ' '), (d :: rest).dropWhile isJsSpace)
    else none
  | _ => none

/-- One line-start match of the numbered-list-marker regex (spaces or tabs,
one or more digits, a dot, then one or more whitespace characters), removed. -/
def numListStep (s : List Char) : Option (List Char × Bool × List Char) :=
  let r := s.dropWhile (fun c => c == ' ' || c == '\t')
  match r.takeWhile isDigitChar, r.dropWhile isDigitChar with
  | [], _ => none
  | _ :: _, '.' :: d :: rest =>
    if isJsSpace d then
      let run := (d :: rest).takeWhile isJsSpace
      some ([], isLineTermChar (run.getLastD ' '), (d :: rest).dropWhile isJsSpace)
    else none
  | _, _ => none

/-- Global removal of fenced code blocks. -/
def removeFencedBlocks (s : List Char) : List Char :=
  scanReplace fencedStep (s.length + 1) s

/-- Global removal of inline code spans (star-quantified inner class). -/
def removeInlineCode (s : List Char) : List Char :=
  scanReplace inlineCodeStep (s.length + 1) s

/-- Global removal of markdown images. -/
def removeImages (s : List Char) : List Char :=
  scanReplace imageStep (s.length + 1) s

/-- Global replacement of markdown links by their visible text. -/
def linksToText (s : List Char) : List Char :=
  scanReplace linkStep (s.length + 1) s

/-- Global removal of star bold/italic markers. -/
def removeBoldStars (s : List Char) : List Char :=
  scanReplace boldStep (s.length + 1) s

/-- Global removal of double-underscore markers. -/
def removeUnder2 (s : List Char) : List Char :=
  scanReplace under2Step (s.length + 1) s

/-- Global removal of single-underscore markers. -/
def removeUnder1 (s : List Char) : List Char :=
  scanReplace under1Step (s.length + 1) s

/-- Global removal of HTML-like tags. -/
def removeHtmlTags (s : List Char) : List Char :=
  scanReplace tagStep (s.length + 1) s

/-- Global replacement of newline runs by single spaces. -/
def newlinesToSpaces (s : List Char) : List Char :=
  scanReplace newlineRunStep (s.length + 1) s

/-- Global replacement of whitespace runs of length at least two by single
spaces. -/
def collapseSpaceRuns (s : List Char) : List Char :=
  scanReplace spaceRunStep (s.length + 1) s

/-- Global replacement of full-width-comma runs of length at least two by a
single full-width comma. -/
def collapseCommaRuns (s : List Char) : List Char :=
  scanReplace commaRunStep (s.length + 1) s

/-- Global removal of whole heading lines. -/
def removeHeadingLines (s : List Char) : List Char :=
  scanReplaceLS headingStep true (s.length + 1) s

/-- Global removal of blockquote markers at line starts. -/
def removeBlockquoteMarks (s : List Char) : List Char :=
  scanReplaceLS bqStep true (s.length + 1) s

/-- Global removal of list markers at line starts. -/
def removeListMarks (s : List Char) : List Char :=
  scanReplaceLS listMarkStep true (s.length + 1) s

/-- Global removal of numbered-list markers at line starts. -/
def removeNumListMarks (s : List Char) : List Char :=
  scanReplaceLS numListStep true (s.length + 1) s

/-- Replace every maximal run of characters of class p by the single
character r (the JS replace of a plus-quantified character class). The Bool
records whether the previous character was in the class. -/
def replaceRunAux (p : Char → Bool) (r : Char) : Bool → List Char → List Char
  | _, [] => []
  | prevIn, c :: rest =>
    if p c then
      (if prevIn then replaceRunAux p r true rest else r :: replaceRunAux p r true rest)
    else c :: replaceRunAux p r false rest

/-- Entry point of replaceRunAux. -/
def replaceRun (p : Char → Bool) (r : Char) (s : List Char) : List Char :=
  replaceRunAux p r false s

/-- The punctuation-canonicalization stage of toDeclarativeSentence: the five
class replaces of the source, in order. Note that the first class maps both
the ASCII full stop and the ASCII semicolon to the full-width full stop. -/
def normalizePunct (s : List Char) : List Char :=
  let s1 := replaceRun (fun c => c == '.' || c == ';') '。' s
  let s2 := replaceRun (fun c => c == '!' || c == '?') '！' s1
  let s3 := replaceRun (fun c => c == ',' || c == '，') '，' s2
  let s4 := replaceRun (fun c => c == ':' || c == '：') '：' s3
  replaceRun (fun c => c == ';' || c == '；') '；' s4

/-- First decorative-symbol class removed by toDeclarativeSentence: quotes,
backtick, tilde, caret, underscore, star, at, hash, dollar, percent,
ampersand, plus, equals and angle brackets. -/
def isSummarySymbol (c : Char) : Bool :=
  c == '"' || c == '\'' || c == '`' || c == '~' || c == '^' || c == '_' || c == '*' ||
  c == '@' || c == '#' || c == '$' || c == '%' || c == '&' || c == '+' || c == '=' ||
  c == '<' || c == '>'

/-- Second decorative-symbol class removed by toDeclarativeSentence: ASCII and
full-width brackets. In the source this character class also contains the
ASCII space character (between the full-width bracket pairs), so spaces are
removed as well. -/
def isBracketOrSpaceSymbol (c : Char) : Bool :=
  c == '(' || c == ')' || c == '[' || c == ']' || c == '\x7b' || c == '\x7d' ||
  c == '（' || c == ' ' || c == '）' || c == '【' || c == '】'

/-- Third decorative-symbol class removed by toDeclarativeSentence: pipe,
backslash and slash. -/
def isPipeOrSlash (c : Char) : Bool :=
  c == '|' || c == '\\' || c == '/'

/-- The three decorative-symbol removals of toDeclarativeSentence, in order. -/
def removeSummarySymbols (s : List Char) : List Char :=
  ((s.filter (fun c => !(isSummarySymbol c))).filter
    (fun c => !(isBracketOrSpaceSymbol c))).filter (fun c => !(isPipeOrSlash c))

/-- The sentence-terminator class on which toDeclarativeSentence splits. -/
def isTerminatorChar (c : Char) : Bool :=
  c == '。' || c == '！' || c == '？' || c == '!' || c == '…'

/-- Split at every character of class p. The source splits on a
plus-quantified class; since the parts are immediately trimmed and the empty
ones discarded, splitting at every class character retains the same parts
(runs of separators only contribute extra empty parts). -/
def splitAtP (p : Char → Bool) : List Char → List (List Char)
  | [] => [[]]
  | c :: rest =>
    if p c then [] :: splitAtP p rest
    else
      match splitAtP p rest with
      | l :: ls => (c :: l) :: ls
      | [] => [[c]]

/-- The trailing separator class stripped at the end of toDeclarativeSentence. -/
def isTrailingSepChar (c : Char) : Bool :=
  c == '，' || c == '、' || c == '：' || c == '；'

/-- The configured summary length bound of the generator script. -/
def SUMMARY_MAX_LEN : Nat := 500

/-- Embedding of toDeclarativeSentence: canonicalize punctuation, strip
decorative symbols, split on sentence terminators, rejoin the trimmed
non-empty clauses with full-width commas, collapse whitespace and comma runs,
trim, truncate to one below the length bound, strip trailing separators and
force a full-width full stop at the end. Lengths count Unicode code points. -/
def toDeclarativeSentence (text : List Char) (maxLen : Nat := SUMMARY_MAX_LEN) : List Char :=
  let s := removeSummarySymbols (normalizePunct text)
  let parts := ((splitAtP isTerminatorChar s).map trimJs).filter (fun t => !t.isEmpty)
  let merged := joinSep '，' parts
  let merged := trimJs (collapseCommaRuns (collapseSpaceRuns merged))
  let coreMax := max 1 (maxLen - 1)
  let merged :=
    if coreMax < merged.length then dropTrailingWhile isTrailingSepChar (merged.take coreMax)
    else dropTrailingWhile isTrailingSepChar merged
  if jsEndsWith merged '。' then merged else merged ++ ['。']

/-- Matcher for a summary key at the head of a line: optional whitespace, the
word summary case-insensitively, optional whitespace, then a colon. -/
def isSummaryKeyLine (l : List Char) : Bool :=
  match stripPrefixCI "summary".toList (l.dropWhile isJsSpace) with
  | some r =>
    match r.dropWhile isJsSpace with
    | ':' :: _ => true
    | _ => false
  | none => false

/-- Matcher for a stray code-fence line inside front matter. -/
def isCodeFenceLine (l : List Char) : Bool :=
  match l.dropWhile isJsSpace with
  | '`' :: '`' :: '`' :: _ => true
  | _ => false

/-- Matcher for a YAML key line: optional whitespace, an ASCII letter or
underscore, word characters or dashes, optional whitespace, then a colon. -/
def isYamlKeyLine (l : List Char) : Bool :=
  match l.dropWhile isJsSpace with
  | c :: rest =>
    if isAsciiLetterChar c || c == '_' then
      match (rest.dropWhile (fun d => isWordChar d || d == '-')).dropWhile isJsSpace with
      | ':' :: _ => true
      | _ => false
    else false
  | [] => false

/-- Matcher for a YAML list-item line: optional whitespace, a dash, one or
more whitespace characters, then at least one more character. Because the
final dot of the source regex also matches a space, a dash followed by two
or more spaces matches even with nothing after them. -/
def isYamlListItemLine (l : List Char) : Bool :=
  match l.dropWhile isJsSpace with
  | '-' :: rest =>
    let sp := rest.takeWhile isJsSpace
    let rem := rest.dropWhile isJsSpace
    decide (1 ≤ sp.length) && (!rem.isEmpty || decide (2 ≤ sp.length))
  | _ => false

/-- Matcher for a YAML comment line. -/
def isYamlCommentLine (l : List Char) : Bool :=
  match l.dropWhile isJsSpace with
  | '#' :: _ => true
  | _ => false

/-- Matcher for a blank line (whitespace only). -/
def isBlankLine (l : List Char) : Bool := l.all isJsSpace

/-- The defensive line filter of upsertSummaryInFrontmatter: drop summary
lines and stray code fences, keep YAML key, list-item, comment and blank
lines, drop everything else. -/
def keepLine (l : List Char) : Bool :=
  if isSummaryKeyLine l then false
  else if isCodeFenceLine l then false
  else isYamlKeyLine l || isYamlListItemLine l || isYamlCommentLine l || isBlankLine l

/-- Embedding of escapeYaml: escape double quotes with a backslash and wrap
the text in double quotes. Backslashes themselves are not escaped. -/
def escapeYaml (text : List Char) : List Char :=
  '"' :: ((text.map (fun c => if c = '"' then ['\\', '"'] else [c])).flatten ++ ['"'])

/-- Index of the first line after the opening one whose trim is the
front-matter delimiter (the findIndex of the source, with its index
accumulator made explicit). -/
def findDelimGo : Nat → List (List Char) → Option Nat
  | _, [] => none
  | i, l :: rest =>
    if decide (0 < i) && (trimJs l == "---".toList) then some i
    else findDelimGo (i + 1) rest

/-- The summary line written by the upsert. -/
def summaryLineOf (summary : List Char) : List Char :=
  "summary: ".toList ++ escapeYaml summary

/-- The defensively filtered inner lines of a front-matter block kept by the
upsert: the lines from just after the opening one up to the closing
delimiter (to the end when no closing delimiter exists), filtered by
keepLine. -/
def upsertBodyLines (frontmatter : List Char) : List (List Char) :=
  let lines := splitNl frontmatter
  let endIdx := (findDelimGo 0 lines).getD lines.length
  ((lines.drop 1).take (endIdx - 1)).filter keepLine

/-- Embedding of upsertSummaryInFrontmatter: synthesize a minimal block when
the front matter is empty; otherwise keep the defensively filtered inner
lines up to the closing delimiter, append the summary line and the closing
delimiter, and guarantee one trailing newline. -/
def upsertSummaryInFrontmatter (frontmatter summary : List Char) : List Char :=
  if frontmatter.isEmpty then
    "---\n".toList ++ summaryLineOf summary ++ "\n---\n".toList
  else
    let rebuilt :=
      "---".toList :: (upsertBodyLines frontmatter ++ [summaryLineOf summary, "---".toList])
    let fmStr := joinNl rebuilt
    if jsEndsWith fmStr '\n' then fmStr else fmStr ++ ['\n']

/-- The inner lines of a front-matter block: everything between the opening
line and the closing delimiter (or everything after the opening line when no
closing delimiter is found). -/
def innerLinesOf (lines : List (List Char)) : List (List Char) :=
  match findDelimGo 0 lines with
  | some e => (lines.drop 1).take (e - 1)
  | none => lines.drop 1

/-- Embedding of mergeFrontmatterBlocks: concatenate the inner lines of two
adjacent blocks, dropping summary lines from both, and rewrap in delimiters
with a trailing newline. -/
def mergeFrontmatterBlocks (fm1 fm2 : List Char) : List Char :=
  let cleaned1 := (innerLinesOf (splitCRLF fm1)).filter (fun l => !(isSummaryKeyLine l))
  let cleaned2 := (innerLinesOf (splitCRLF fm2)).filter (fun l => !(isSummaryKeyLine l))
  let fmStr := joinNl ("---".toList :: (cleaned1 ++ cleaned2 ++ ["---".toList]))
  if jsEndsWith fmStr '\n' then fmStr else fmStr ++ ['\n']

/-- Scanner for the summary-presence test: a summary key at the string start
or after any newline. -/
def hasSummaryGo : Bool → List Char → Bool
  | _, [] => false
  | atStart, c :: rest =>
    (atStart && isSummaryKeyLine (c :: rest)) || hasSummaryGo (c == '\n') rest

/-- Embedding of hasSummaryInFrontmatter. -/
def hasSummaryInFrontmatter (frontmatter : List Char) : Bool :=
  if frontmatter.isEmpty then false else hasSummaryGo true frontmatter

/-- Does a triple backtick occur anywhere in the text. -/
def hasTripleTick : List Char → Bool
  | '`' :: '`' :: '`' :: _ => true
  | _ :: rest => hasTripleTick rest
  | [] => false

/-- Test of the fenced-code regex: a triple backtick followed, possibly after
other characters, by another triple backtick. -/
def testFence : List Char → Bool
  | '`' :: '`' :: '`' :: rest => hasTripleTick rest
  | _ :: rest => testFence rest
  | [] => false

/-- Test of the inline-code regex: a backtick, at least one non-backtick,
then a backtick. -/
def testInline : List Char → Bool
  | '`' :: c :: rest => if c = '`' then testInline (c :: rest) else rest.contains '`'
  | _ :: rest => testInline rest
  | [] => false

/-- Does the keyword kw occur at the head of s with a non-word character (or
the end) right after it. -/
def kwCheck (kw : List Char) (s : List Char) : Bool :=
  match stripPrefixList kw s with
  | some [] => true
  | some (d :: _) => !(isWordChar d)
  | none => false

/-- One of the ten source-code keywords at the head of s. -/
def keywordAt (s : List Char) : Bool :=
  kwCheck "import".toList s || kwCheck "export".toList s || kwCheck "const".toList s ||
  kwCheck "let".toList s || kwCheck "var".toList s || kwCheck "function".toList s ||
  kwCheck "interface".toList s || kwCheck "class".toList s || kwCheck "return".toList s ||
  kwCheck "new".toList s

/-- Scanner for the keyword regex with word boundaries: the flag records
whether the previous character was a word character. -/
def testKeywordGo : Bool → List Char → Bool
  | _, [] => false
  | prevWord, c :: rest =>
    (!prevWord && keywordAt (c :: rest)) || testKeywordGo (isWordChar c) rest

/-- Test of the source-code-keyword regex. -/
def testKeyword (s : List Char) : Bool := testKeywordGo false s

/-- Test of the arrow-function regex: word characters, optional whitespace,
then an arrow. -/
def testArrow : List Char → Bool
  | [] => false
  | c :: rest =>
    (isWordChar c &&
      (match (rest.dropWhile isWordChar).dropWhile isJsSpace with
       | '=' :: '>' :: _ => true
       | _ => false)) || testArrow rest

/-- Test of the dotted-member-access regex: word characters, a dot, then a
word character. -/
def testDotted : List Char → Bool
  | [] => false
  | c :: rest =>
    (isWordChar c &&
      (match rest.dropWhile isWordChar with
       | '.' :: d :: _ => isWordChar d
       | _ => false)) || testDotted rest

/-- The structural-punctuation class counted by looksLikeCode. -/
def isCodePunct (c : Char) : Bool :=
  c == '\x7b' || c == '\x7d' || c == '(' || c == ')' || c == ';' || c == '[' || c == ']'

/-- Embedding of looksLikeCode: the weighted score of the six signals, with
rejection at a score of at least two. -/
def looksLikeCode (text : List Char) : Bool :=
  if text.isEmpty then false
  else
    let score :=
      (if testFence text then 2 else 0) + (if testInline text then 1 else 0) +
      (if testKeyword text then 2 else 0) + (if testArrow text then 1 else 0) +
      (if testDotted text then 1 else 0) +
      (if decide (3 ≤ (text.filter isCodePunct).length) then 1 else 0)
    decide (2 ≤ score)

/-- Embedding of sanitizeSummaryText: strip markdown and HTML noise, collapse
whitespace, then hand the result to toDeclarativeSentence. The inline-code
removal is commented out in the source and therefore absent here. -/
def sanitizeSummaryText (text : List Char) (maxLen : Nat := SUMMARY_MAX_LEN) : List Char :=
  if text.isEmpty then []
  else
    let s := removeFencedBlocks text
    let s := removeImages s
    let s := linksToText s
    let s := removeBoldStars s
    let s := removeUnder1 (removeUnder2 s)
    let s := removeNumListMarks (removeListMarks (removeBlockquoteMarks (removeHeadingLines s)))
    let s := removeHtmlTags s
    let s := trimJs (collapseSpaceRuns (newlinesToSpaces s))
    if s.isEmpty then [] else toDeclarativeSentence s maxLen

/-- Embedding of localGenerateSummary: clean the body (including inline code,
but with no bold or underscore handling), and fall back to the title or a
generic placeholder when the cleaned body is empty. -/
def localGenerateSummary (title body : List Char) (maxLen : Nat := SUMMARY_MAX_LEN) :
    List Char :=
  let c1 := removeInlineCode (removeFencedBlocks body)
  let c2 := linksToText (removeImages c1)
  let c3 := removeNumListMarks (removeListMarks (removeBlockquoteMarks (removeHeadingLines c2)))
  let c4 := trimJs (collapseSpaceRuns (newlinesToSpaces (removeHtmlTags c3)))
  if c4.isEmpty then
    toDeclarativeSentence (if title.isEmpty then "本文介绍相关主题与步骤。".toList else title) maxLen
  else toDeclarativeSentence c4 maxLen

/-- Embedding of limitBody. The JS number is modelled as an integer; the
finiteness test of the source is vacuous there. -/
def limitBody (body : List Char) (maxChars : Int) : List Char :=
  if maxChars ≤ 0 then body
  else if decide (maxChars < (body.length : Int)) then body.take maxChars.toNat else body

/-- Embedding of isASCII: every code point is at most 127. -/
def isASCII (s : List Char) : Bool := s.all (fun c => decide (c.toNat ≤ 127))

/-- The observable request built by callSummaryAPI: where the credential is
carried, and the JSON body fields. -/
structure SummaryRequest where
  authHeader : Option (List Char)
  apiKeyField : Option (List Char)
  titleField : List Char
  contentField : List Char
  wordLimitField : Int
deriving DecidableEq

/-- Embedding of the request construction of callSummaryAPI: an ASCII
credential is sent as a bearer authorization header, a non-ASCII credential
goes into the JSON body, an empty credential is sent nowhere. -/
def buildSummaryRequest (key title body : List Char) (limit : Int) : SummaryRequest :=
  let limited := limitBody body limit
  if key.isEmpty then
    { authHeader := none, apiKeyField := none, titleField := title,
      contentField := limited, wordLimitField := limit }
  else if isASCII key then
    { authHeader := some ("Bearer ".toList ++ key), apiKeyField := none,
      titleField := title, contentField := limited, wordLimitField := limit }
  else
    { authHeader := none, apiKeyField := some key, titleField := title,
      contentField := limited, wordLimitField := limit }

/-- Embedding of promptYesNo, with the typed line passed explicitly: trim and
lower-case the answer, fall back to the default when it is empty, otherwise
accept only y or yes. -/
def promptYesNo (answer : List Char) (defaultYes : Bool) : Bool :=
  let v := asciiLower (trimJs answer)
  if v.isEmpty then defaultYes
  else v == "y".toList || v == "yes".toList

/-- The overwrite policy for existing summaries. -/
inductive OverwritePolicy
  | ask
  | always
  | never
deriving DecidableEq

/-- The write decision of processOne for a document, given the policy,
whether the front matter already has a summary, and the interactive answer
(consulted only under the ask policy): true means the file is rewritten. -/
def overwriteDecision (policy : OverwritePolicy) (hasSummary : Bool) (answer : List Char) :
    Bool :=
  if hasSummary then
    match policy with
    | .never => false
    | .ask => promptYesNo answer false
    | .always => true
  else true

/-- The shared token-to-policy mapping of the two policy readers (the token
is already lower-cased by the callers). -/
def policyOfLowerToken (v : List Char) : Option OverwritePolicy :=
  if v == "ask".toList then some .ask
  else if v == "always".toList then some .always
  else if v == "never".toList then some .never
  else if v == "yes".toList || v == "y".toList || v == "true".toList || v == "1".toList then
    some .always
  else if v == "no".toList || v == "n".toList || v == "false".toList || v == "0".toList then
    some .never
  else none

/-- Embedding of readOverwritePolicyFromCustom from the captured config token
onwards (the file read and the comment regex are process input; the captured
word is passed explicitly). -/
def readOverwritePolicyFromCustomToken (token : List Char) : Option OverwritePolicy :=
  policyOfLowerToken (asciiLower token)

/-- Embedding of readOverwritePolicyFromEnv with the raw environment value
passed explicitly. -/
def readOverwritePolicyFromEnvRaw (raw : List Char) : Option OverwritePolicy :=
  let r := asciiLower (trimJs raw)
  if r.isEmpty then none else policyOfLowerToken r

/-- Embedding of getOverwritePolicy: config value first, then environment,
then the interactivity-dependent default. -/
def getOverwritePolicy (custom env : Option OverwritePolicy) (isInteractive : Bool) :
    OverwritePolicy :=
  match custom with
  | some c => c
  | none =>
    match env with
    | some e => e
    | none => if isInteractive then .ask else .never

/-- The front-matter lookahead: end of text, a newline, or a carriage return
followed by a newline. -/
def lookaheadOk : List Char → Bool
  | [] => true
  | '\n' :: _ => true
  | '\r' :: '\n' :: _ => true
  | _ => false

/-- A closing front-matter delimiter at the current position: an optional
carriage return, a newline, three dashes, then the lookahead. Returns the
consumed close and the remainder. -/
def closeAt (s : List Char) : Option (List Char × List Char) :=
  match s with
  | '\r' :: '\n' :: '-' :: '-' :: '-' :: rest =>
    if lookaheadOk rest then some (['\r', '\n', '-', '-', '-'], rest) else none
  | '\n' :: '-' :: '-' :: '-' :: rest =>
    if lookaheadOk rest then some (['\n', '-', '-', '-'], rest) else none
  | _ => none

/-- Lazy scan for the closing delimiter: the first position where closeAt
succeeds. Returns the consumed middle-plus-close and the remainder. Fuel is
the text length; each step consumes one character. -/
def fmFindCloseGo : Nat → List Char → Option (List Char × List Char)
  | _, [] => none
  | 0, _ => none
  | fuel + 1, c :: rest =>
    match closeAt (c :: rest) with
    | some p => some p
    | none => (fmFindCloseGo fuel rest).map (fun p => (c :: p.1, p.2))

/-- The anchored front-matter regex of the splitter: three dashes, an
optional carriage return, a newline, a lazy middle, then the closing
delimiter with lookahead. Returns the whole match and the remainder. -/
def fmMatch (s : List Char) : Option (List Char × List Char) :=
  match s with
  | '-' :: '-' :: '-' :: '\r' :: '\n' :: rest =>
    (fmFindCloseGo rest.length rest).map
      (fun p => ('-' :: '-' :: '-' :: '\r' :: '\n' :: p.1, p.2))
  | '-' :: '-' :: '-' :: '\n' :: rest =>
    (fmFindCloseGo rest.length rest).map (fun p => ('-' :: '-' :: '-' :: '\n' :: p.1, p.2))
  | _ => none

/-- Strip one leading byte-order mark. -/
def stripBOM : List Char → List Char
  | '﻿' :: rest => rest
  | s => s

/-- The body cleanup of the splitter: remove one optional leading carriage
return and then any number of leading newlines. -/
def stripLeadNl (s : List Char) : List Char :=
  match s with
  | '\r' :: rest => rest.dropWhile (fun c => c == '\n')
  | _ => s.dropWhile (fun c => c == '\n')

/-- Embedding of splitFrontmatterAndBody: strip a byte-order mark and leading
whitespace, take the first front-matter block if any, merge a second
adjacent block when present, and return the block with the cleaned body. -/
def splitFrontmatterAndBody (content : List Char) : List Char × List Char :=
  let c1 := trimStartJs (stripBOM content)
  match fmMatch c1 with
  | none => ([], c1)
  | some (fm, tail) =>
    match fmMatch tail with
    | some (fm2, tail2) => (mergeFrontmatterBlocks fm fm2, stripLeadNl tail2)
    | none => (fm, stripLeadNl tail)

/-- Embedding of extractBodyOnly: like the splitter but returning only the
body, skipping one duplicate adjacent block without merging. -/
def extractBodyOnly (content : List Char) : List Char :=
  let s := trimStartJs (stripBOM content)
  match fmMatch s with
  | none => s
  | some (_, tail) =>
    match fmMatch tail with
    | some (_, tail2) => stripLeadNl tail2
    | none => stripLeadNl tail

/-- Greedy star over the whitespace class: the backtracking candidates, from
the longest consumed run down to none. -/
def wsStarCands (s : List Char) : List (List Char) :=
  ((List.range ((s.takeWhile isJsSpace).length + 1)).reverse).map (fun k => s.drop k)

/-- Optional quote: the candidate with the quote consumed first (greedy),
then the one without. -/
def quoteCands (s : List Char) : List (List Char) :=
  match s with
  | c :: rest => if c = '\'' || c = '"' then [rest, c :: rest] else [c :: rest]
  | [] => [[]]

/-- Greedy plus over the non-quote class, capturing: candidate pairs of
captured text and remainder, from the longest capture down to one character. -/
def capCands (s : List Char) : List (List Char × List Char) :=
  ((List.range ((s.takeWhile (fun c => !(c == '\'' || c == '"'))).length)).reverse).map
    (fun k => (s.take (k + 1), s.drop (k + 1)))

/-- The title regex of readTitleFromFrontmatter tried at one position: a
newline, the title key, optional whitespace, an optional quote, one or more
non-quote characters (captured, and able to cross line breaks), an optional
quote, optional whitespace, then a newline. Backtracking follows the regex
order: longest candidates first, quote-present before quote-absent. -/
def matchTitleAt (s : List Char) : Option (List Char) :=
  match stripPrefixList "\ntitle:".toList s with
  | none => none
  | some r2 =>
    firstSome (fun r3 =>
      firstSome (fun r4 =>
        firstSome (fun capr5 =>
          firstSome (fun r6 =>
            firstSome (fun r7 =>
              match r7 with
              | '\n' :: _ => some capr5.1
              | _ => none) (wsStarCands r6)) (quoteCands capr5.2)) (capCands r4))
        (quoteCands r3)) (wsStarCands r2)

/-- Leftmost match of the title regex. -/
def readTitleScan : List Char → Option (List Char)
  | [] => none
  | c :: rest =>
    match matchTitleAt (c :: rest) with
    | some cap => some cap
    | none => readTitleScan rest

/-- Embedding of readTitleFromFrontmatter. -/
def readTitleFromFrontmatter (frontmatter : List Char) : List Char :=
  match readTitleScan frontmatter with
  | some cap => trimJs cap
  | none => []

/-- The provider-acceptance gate of processOne: with an API response in hand
(none models a failed call), the local fallback is used exactly when the
sanitized summary is empty or still looks like code. -/
def usesLocalFallback (apiSummary : Option (List Char)) : Bool :=
  let summaryRaw := apiSummary.getD []
  let summary := sanitizeSummaryText summaryRaw SUMMARY_MAX_LEN
  summary.isEmpty || looksLikeCode summary

/-- The per-document processing of processOne with no API configured: none
models the overwrite-policy gate skipping a document whose front matter
already has a summary (policy never, or ask answered no); otherwise the
rewritten file content is returned. -/
def processOneNoAPI (content : List Char) (limit : Int) : Option (List Char) :=
  let fmBody := splitFrontmatterAndBody content
  if hasSummaryInFrontmatter fmBody.1 then none
  else
    let bodyOnly := extractBodyOnly content
    let title := readTitleFromFrontmatter fmBody.1
    let limitedBody := limitBody bodyOnly limit
    let summary0 := sanitizeSummaryText [] SUMMARY_MAX_LEN
    let summary1 :=
      if summary0.isEmpty || looksLikeCode summary0 then
        localGenerateSummary title limitedBody SUMMARY_MAX_LEN
      else summary0
    let summary := toDeclarativeSentence summary1 SUMMARY_MAX_LEN
    some (upsertSummaryInFrontmatter fmBody.1 summary ++ fmBody.2)


theorem asciiLowerChar_toNat (c : Char) (h : 65 ≤ c.toNat ∧ c.toNat ≤ 90) :
    (asciiLowerChar c).toNat = c.toNat + 32 := by
  unfold asciiLowerChar
  rw [dif_pos h]
  rfl

theorem asciiLowerChar_of_not (c : Char) (h : ¬(65 ≤ c.toNat ∧ c.toNat ≤ 90)) :
    asciiLowerChar c = c := by
  unfold asciiLowerChar
  rw [dif_neg h]

theorem asciiLowerChar_idem (c : Char) :
    asciiLowerChar (asciiLowerChar c) = asciiLowerChar c := by
  by_cases h : 65 ≤ c.toNat ∧ c.toNat ≤ 90
  · apply asciiLowerChar_of_not
    rw [asciiLowerChar_toNat c h]
    omega
  · simp only [asciiLowerChar_of_not c h]

theorem asciiLower_idem (s : List Char) : asciiLower (asciiLower s) = asciiLower s := by
  unfold asciiLower
  rw [List.map_map]
  exact List.map_congr_left (fun a _ => asciiLowerChar_idem a)

theorem isJsSpace_false_of_range (c : Char) (h65 : 65 ≤ c.toNat) (h122 : c.toNat ≤ 122) :
    isJsSpace c = false := by
  unfold isJsSpace
  simp only [Bool.or_eq_false_iff, Bool.and_eq_false_iff, beq_eq_false_iff_ne, ne_eq,
    decide_eq_false_iff_not]
  omega

theorem isJsSpace_asciiLowerChar (c : Char) :
    isJsSpace (asciiLowerChar c) = isJsSpace c := by
  by_cases h : 65 ≤ c.toNat ∧ c.toNat ≤ 90
  · have ht := asciiLowerChar_toNat c h
    rw [isJsSpace_false_of_range (asciiLowerChar c) (by omega) (by omega),
      isJsSpace_false_of_range c (by omega) (by omega)]
  · rw [asciiLowerChar_of_not c h]

theorem dropWhile_asciiLower (s : List Char) :
    (asciiLower s).dropWhile isJsSpace = asciiLower (s.dropWhile isJsSpace) := by
  induction s with
  | nil => rfl
  | cons c rest ih =>
    by_cases h : isJsSpace c = true
    · have h2 : isJsSpace (asciiLowerChar c) = true := by
        rw [isJsSpace_asciiLowerChar]; exact h
      simp only [asciiLower, List.map_cons, List.dropWhile_cons, h, h2, if_true]
      exact ih
    · have h2 : isJsSpace (asciiLowerChar c) = false := by
        rw [isJsSpace_asciiLowerChar]; simpa using h
      simp [asciiLower, List.dropWhile_cons, h, h2]

theorem reverse_asciiLower (s : List Char) :
    (asciiLower s).reverse = asciiLower s.reverse := by
  simp [asciiLower, List.map_reverse]

theorem dropTrailingWhile_asciiLower (x : List Char) :
    dropTrailingWhile isJsSpace (asciiLower x) = asciiLower (dropTrailingWhile isJsSpace x) := by
  unfold dropTrailingWhile
  rw [reverse_asciiLower, dropWhile_asciiLower, reverse_asciiLower]

theorem trimJs_asciiLower (s : List Char) : trimJs (asciiLower s) = asciiLower (trimJs s) := by
  unfold trimJs
  rw [dropWhile_asciiLower, dropTrailingWhile_asciiLower]

/-- C10: the overwrite-policy resolver accepts the aliases yes, y, true and
the digit one as always, and no, n, false and the digit zero as never, from
both the commented config token and the environment value,
ASCII-case-insensitively; and when neither source yields a policy the
default is ask exactly when both standard input and standard output are
interactive terminals, and never otherwise. -/
theorem overwritePolicy_aliases_and_default :
    readOverwritePolicyFromCustomToken "yes".toList = some OverwritePolicy.always ∧
    readOverwritePolicyFromCustomToken "y".toList = some OverwritePolicy.always ∧
    readOverwritePolicyFromCustomToken "true".toList = some OverwritePolicy.always ∧
    readOverwritePolicyFromCustomToken "1".toList = some OverwritePolicy.always ∧
    readOverwritePolicyFromCustomToken "no".toList = some OverwritePolicy.never ∧
    readOverwritePolicyFromCustomToken "n".toList = some OverwritePolicy.never ∧
    readOverwritePolicyFromCustomToken "false".toList = some OverwritePolicy.never ∧
    readOverwritePolicyFromCustomToken "0".toList = some OverwritePolicy.never ∧
    readOverwritePolicyFromCustomToken "YES".toList = some OverwritePolicy.always ∧
    readOverwritePolicyFromCustomToken "Never".toList = some OverwritePolicy.never ∧
    readOverwritePolicyFromEnvRaw " Yes ".toList = some OverwritePolicy.always ∧
    readOverwritePolicyFromEnvRaw "FALSE".toList = some OverwritePolicy.never ∧
    (∀ t : List Char,
      readOverwritePolicyFromCustomToken (asciiLower t)
        = readOverwritePolicyFromCustomToken t) ∧
    (∀ r : List Char,
      readOverwritePolicyFromEnvRaw (asciiLower r) = readOverwritePolicyFromEnvRaw r) ∧
    (∀ stdinTTY stdoutTTY : Bool,
      getOverwritePolicy none none (stdinTTY && stdoutTTY)
        = if stdinTTY && stdoutTTY then OverwritePolicy.ask else OverwritePolicy.never) := by
  refine ⟨by decide, by decide, by decide, by decide, by decide, by decide, by decide,
    by decide, by decide, by decide, by decide, by decide, ?_, ?_, ?_⟩
  · intro t
    unfold readOverwritePolicyFromCustomToken
    rw [asciiLower_idem]
  · intro r
    simp only [readOverwritePolicyFromEnvRaw]
    rw [trimJs_asciiLower, asciiLower_idem]
  · intro b1 b2
    cases b1 <;> cases b2 <;> rfl

/-- C8 (counterexample): the punctuation-canonicalization stage maps the
ASCII semicolon to the sentence terminator, not to the full-width semicolon
separator the claim names. -/
theorem normalizePunct_semicolon_counterexample :
    normalizePunct ";".toList = "。".toList ∧ normalizePunct ";".toList ≠ "；".toList := by
  decide

/-- C8 (amended): the canonicalization maps the full stop and the ASCII
semicolon to the terminator class, exclamation and question marks to the
exclamation class, commas to the full-width comma, colons to the full-width
colon, and only the full-width semicolon to the full-width semicolon. -/
theorem normalizePunct_char_map :
    normalizePunct ".".toList = "。".toList ∧
    normalizePunct ";".toList = "。".toList ∧
    normalizePunct "!".toList = "！".toList ∧
    normalizePunct "?".toList = "！".toList ∧
    normalizePunct ",".toList = "，".toList ∧
    normalizePunct "，".toList = "，".toList ∧
    normalizePunct ":".toList = "：".toList ∧
    normalizePunct "：".toList = "：".toList ∧
    normalizePunct "；".toList = "；".toList ∧
    normalizePunct "。".toList = "。".toList := by
  decide

/-- C6: for a document whose front matter already has a summary, the never
policy skips the write for every interactive answer; the ask policy skips
when the trimmed lower-cased answer is empty or is not y or yes (the default
answer is no); the always policy writes regardless of any answer, consulting
no prompt. -/
theorem overwrite_policy_matrix (ans : List Char)
    (h : asciiLower (trimJs ans) = [] ∨
      (asciiLower (trimJs ans) ≠ "y".toList ∧ asciiLower (trimJs ans) ≠ "yes".toList)) :
    (∀ a : List Char, overwriteDecision OverwritePolicy.never true a = false) ∧
    overwriteDecision OverwritePolicy.ask true ans = false ∧
    (∀ (hs : Bool) (a : List Char), overwriteDecision OverwritePolicy.always hs a = true) := by
  refine ⟨fun a => rfl, ?_, fun hs a => by cases hs <;> rfl⟩
  show promptYesNo ans false = false
  simp only [promptYesNo]
  rcases h with h | ⟨h1, h2⟩
  · simp [h]
  · by_cases he : (asciiLower (trimJs ans)).isEmpty = true
    · simp [he]
    · simp only [he, Bool.false_eq_true, if_false, Bool.or_eq_false_iff,
        beq_eq_false_iff_ne, ne_eq]
      exact ⟨h1, h2⟩

/-- C6 (witness): the answer no skips under ask, never always skips, always
always writes. -/
theorem overwrite_policy_matrix_witness :
    (asciiLower (trimJs "no".toList) = [] ∨
      (asciiLower (trimJs "no".toList) ≠ "y".toList ∧
       asciiLower (trimJs "no".toList) ≠ "yes".toList)) ∧
    ((∀ a : List Char, overwriteDecision OverwritePolicy.never true a = false) ∧
     overwriteDecision OverwritePolicy.ask true "no".toList = false ∧
     (∀ (hs : Bool) (a : List Char), overwriteDecision OverwritePolicy.always hs a = true)) :=
  ⟨Or.inr (by decide), overwrite_policy_matrix "no".toList (Or.inr (by decide))⟩

/-- C7: a non-empty pure-ASCII credential is sent exactly as the bearer
authorization header with no apiKey body field, and a non-empty credential
with any non-ASCII character is sent exactly as the apiKey body field with
no authorization header. -/
theorem credential_placement (key title body : List Char) (limit : Int) (h : key ≠ []) :
    (isASCII key = true →
      (buildSummaryRequest key title body limit).authHeader
          = some ("Bearer ".toList ++ key) ∧
      (buildSummaryRequest key title body limit).apiKeyField = none) ∧
    (isASCII key = false →
      (buildSummaryRequest key title body limit).authHeader = none ∧
      (buildSummaryRequest key title body limit).apiKeyField = some key) := by
  have hne : key.isEmpty = false := by
    cases key with
    | nil => exact absurd rfl h
    | cons c rest => rfl
  constructor
  · intro ha
    simp [buildSummaryRequest, hne, ha]
  · intro ha
    simp [buildSummaryRequest, hne, ha]

/-- C7 (witness): a concrete ASCII credential lands in the header. -/
theorem credential_placement_witness :
    ("k1".toList ≠ ([] : List Char)) ∧
    ((isASCII "k1".toList = true →
      (buildSummaryRequest "k1".toList [] [] 8000).authHeader
          = some ("Bearer ".toList ++ "k1".toList) ∧
      (buildSummaryRequest "k1".toList [] [] 8000).apiKeyField = none) ∧
     (isASCII "k1".toList = false →
      (buildSummaryRequest "k1".toList [] [] 8000).authHeader = none ∧
      (buildSummaryRequest "k1".toList [] [] 8000).apiKeyField = some "k1".toList)) :=
  ⟨by decide, credential_placement "k1".toList [] [] 8000 (by decide)⟩

/-- The provider response used to refute the pipeline half of the
code-likeness claim: its only code content sits inside a fenced block. -/
def exC5 : List Char :=
  "Intro text here\n```\nfunction f() \x7b\x7d\n```\nTail prose".toList

/-- C5 (counterexample): a successful provider response containing a fenced
code block together with the keyword function is nevertheless accepted by
the pipeline gate, because the code-likeness check runs on the sanitized
summary, from which the fence has already been stripped. -/
theorem pipeline_accepts_fenced_response :
    testFence exC5 = true ∧ testKeyword exC5 = true ∧ looksLikeCode exC5 = true ∧
    usesLocalFallback (some exC5) = false := by
  decide

/-- C5 (amended): looksLikeCode itself rejects any text containing a
complete fenced code block, since the fence alone already scores two. -/
theorem looksLikeCode_of_fence (text : List Char) (h : testFence text = true) :
    looksLikeCode text = true := by
  have hne : text.isEmpty = false := by
    cases text with
    | nil => simp [testFence] at h
    | cons c rest => rfl
  simp only [looksLikeCode, hne, h, Bool.false_eq_true, if_false, if_true]
  have key : ∀ a b c d e : Nat, 2 ≤ 2 + a + b + c + d + e := fun a b c d e => by omega
  exact decide_eq_true (key _ _ _ _ _)

/-- C5 (witness): a concrete fenced text is rejected by looksLikeCode. -/
theorem looksLikeCode_of_fence_witness :
    testFence "```x```".toList = true ∧ looksLikeCode "```x```".toList = true :=
  ⟨by decide, looksLikeCode_of_fence "```x```".toList (by decide)⟩

theorem length_dropTrailingWhile_le (p : Char → Bool) (l : List Char) :
    (dropTrailingWhile p l).length ≤ l.length := by
  unfold dropTrailingWhile
  rw [List.length_reverse]
  calc (l.reverse.dropWhile p).length ≤ l.reverse.length :=
        (List.dropWhile_sublist _).length_le
    _ = l.length := List.length_reverse _

theorem jsEndsWith_append_self (l : List Char) (c : Char) :
    jsEndsWith (l ++ [c]) c = true := by
  unfold jsEndsWith
  rw [List.getLast?_concat]
  exact beq_self_eq_true _

/-- C1 (amended): for every input and every length bound of at least two,
the canonicalized declarative sentence has length at most the bound and ends
with the terminal mark; and sanitizeSummaryText, whose last stage it is,
returns either the empty string or such a sentence. With the bound one the
appended terminal mark can push the length to two, so the claim fails there. -/
theorem toDeclarativeSentence_bounded (text : List Char) (maxLen : Nat) (h : 2 ≤ maxLen) :
    (toDeclarativeSentence text maxLen).length ≤ maxLen ∧
    jsEndsWith (toDeclarativeSentence text maxLen) '。' = true ∧
    ((sanitizeSummaryText text maxLen).isEmpty = true ∨
      ((sanitizeSummaryText text maxLen).length ≤ maxLen ∧
       jsEndsWith (sanitizeSummaryText text maxLen) '。' = true)) := by
  have main : ∀ t : List Char,
      (toDeclarativeSentence t maxLen).length ≤ maxLen ∧
      jsEndsWith (toDeclarativeSentence t maxLen) '。' = true := by
    intro t
    have hcore : ∀ m : List Char, m.length ≤ maxLen - 1 →
        (if jsEndsWith m '。' then m else m ++ ['。']).length ≤ maxLen ∧
        jsEndsWith (if jsEndsWith m '。' then m else m ++ ['。']) '。' = true := by
      intro m hm
      by_cases he : jsEndsWith m '。' = true
      · rw [if_pos he]
        exact ⟨hm.trans (by omega), he⟩
      · rw [if_neg he]
        refine ⟨?_, jsEndsWith_append_self m '。'⟩
        rw [List.length_append]
        simp only [List.length_cons, List.length_nil]
        omega
    simp only [toDeclarativeSentence]
    apply hcore
    split
    · next hlt =>
      refine (length_dropTrailingWhile_le _ _).trans ?_
      rw [List.length_take]
      omega
    · next hge =>
      refine (length_dropTrailingWhile_le _ _).trans ?_
      omega
  refine ⟨(main text).1, (main text).2, ?_⟩
  simp only [sanitizeSummaryText]
  split
  · left; rfl
  · split
    · left; rfl
    · right; exact main _

/-- C1 (witness): the configured bound of five hundred on a concrete input. -/
theorem toDeclarativeSentence_bounded_witness :
    2 ≤ 500 ∧
    ((toDeclarativeSentence "Hi there.".toList 500).length ≤ 500 ∧
     jsEndsWith (toDeclarativeSentence "Hi there.".toList 500) '。' = true ∧
     ((sanitizeSummaryText "Hi there.".toList 500).isEmpty = true ∨
       ((sanitizeSummaryText "Hi there.".toList 500).length ≤ 500 ∧
        jsEndsWith (sanitizeSummaryText "Hi there.".toList 500) '。' = true))) :=
  ⟨by decide, toDeclarativeSentence_bounded "Hi there.".toList 500 (by decide)⟩

/-- C1 (counterexample): with the positive bound one the canonicalizer
returns a two-character string, exceeding the bound. -/
theorem toDeclarativeSentence_maxLen_one_counterexample :
    toDeclarativeSentence "ab".toList 1 = "a。".toList ∧
    ¬((toDeclarativeSentence "ab".toList 1).length ≤ 1) := by
  decide

theorem splitAtP_ne_nil (p : Char → Bool) (s : List Char) : splitAtP p s ≠ [] := by
  induction s with
  | nil => simp [splitAtP]
  | cons c rest ih =>
    rw [splitAtP]
    by_cases h : p c = true
    · simp [h]
    · simp only [h, Bool.false_eq_true, if_false]
      cases hs : splitAtP p rest with
      | nil => exact absurd hs ih
      | cons hd tl => simp

theorem mem_splitAtP {c : Char} {p : Char → Bool} : ∀ {s l : List Char},
    l ∈ splitAtP p s → c ∈ l → c ∈ s := by
  intro s
  induction s with
  | nil =>
    intro l hl hc
    simp [splitAtP] at hl
    subst hl
    simp at hc
  | cons d rest ih =>
    intro l hl hc
    rw [splitAtP] at hl
    by_cases h : p d = true
    · simp only [h, if_true, List.mem_cons] at hl
      rcases hl with rfl | hl
      · simp at hc
      · exact List.mem_cons_of_mem _ (ih hl hc)
    · simp only [h, Bool.false_eq_true, if_false] at hl
      cases hs : splitAtP p rest with
      | nil => exact absurd hs (splitAtP_ne_nil p rest)
      | cons hd tl =>
        rw [hs] at hl
        rcases List.mem_cons.mp hl with rfl | hl
        · rcases List.mem_cons.mp hc with rfl | hc2
          · exact List.mem_cons_self _ _
          · exact List.mem_cons_of_mem _
              (ih (by rw [hs]; exact List.mem_cons_self hd tl) hc2)
        · exact List.mem_cons_of_mem _ (ih (by rw [hs]; exact List.mem_cons_of_mem _ hl) hc)

theorem mem_joinSep {c sep : Char} : ∀ {L : List (List Char)},
    c ∈ joinSep sep L → c = sep ∨ ∃ l ∈ L, c ∈ l := by
  intro L
  induction L with
  | nil => intro h; simp [joinSep] at h
  | cons l rest ih =>
    intro h
    cases rest with
    | nil =>
      replace h : c ∈ l := h
      exact Or.inr ⟨l, List.mem_cons_self _ _, h⟩
    | cons l2 rest2 =>
      replace h : c ∈ l ++ sep :: joinSep sep (l2 :: rest2) := h
      rcases List.mem_append.mp h with h | h
      · exact Or.inr ⟨l, List.mem_cons_self _ _, h⟩
      · rcases List.mem_cons.mp h with rfl | h
        · exact Or.inl rfl
        · rcases ih h with h | ⟨l', hl', hc⟩
          · exact Or.inl h
          · exact Or.inr ⟨l', List.mem_cons_of_mem _ hl', hc⟩

theorem mem_scanReplace {c x : Char} {step : List Char → Option (List Char × List Char)}
    (hstep : ∀ s out rest', step s = some (out, rest') →
      out = [x] ∧ (∀ d : Char, d ∈ rest' → d ∈ s)) :
    ∀ (fuel : Nat) (s : List Char), c ∈ scanReplace step fuel s → c = x ∨ c ∈ s := by
  intro fuel
  induction fuel with
  | zero =>
    intro s h
    cases s with
    | nil => simp [scanReplace] at h
    | cons d rest => exact Or.inr (by simpa [scanReplace] using h)
  | succ n ih =>
    intro s h
    cases s with
    | nil => simp [scanReplace] at h
    | cons d rest =>
      rw [scanReplace] at h
      cases hst : step (d :: rest) with
      | none =>
        rw [hst] at h
        rcases List.mem_cons.mp h with rfl | h
        · exact Or.inr (List.mem_cons_self _ _)
        · rcases ih rest h with h | h
          · exact Or.inl h
          · exact Or.inr (List.mem_cons_of_mem _ h)
      | some p =>
        obtain ⟨out, rest'⟩ := p
        rw [hst] at h
        obtain ⟨hout, hsub⟩ := hstep _ _ _ hst
        rcases List.mem_append.mp h with h | h
        · rw [hout] at h
          simp at h
          exact Or.inl h
        · rcases ih _ h with h | h
          · exact Or.inl h
          · exact Or.inr (hsub _ h)

theorem spaceRunStep_spec (s out rest' : List Char) (h : spaceRunStep s = some (out, rest')) :
    out = [' '] ∧ ∀ d : Char, d ∈ rest' → d ∈ s := by
  unfold spaceRunStep at h
  cases s with
  | nil => simp at h
  | cons c rest =>
    cases rest with
    | nil => simp at h
    | cons d r =>
      by_cases hc : (isJsSpace c && isJsSpace d) = true
      · simp only [hc, if_true, Option.some.injEq, Prod.mk.injEq] at h
        obtain ⟨h1, h2⟩ := h
        subst h1
        subst h2
        refine ⟨rfl, fun e he => ?_⟩
        exact List.mem_cons_of_mem _ (List.mem_cons_of_mem _
          ((List.dropWhile_sublist _).subset he))
      · simp [hc] at h

theorem commaRunStep_spec (s out rest' : List Char) (h : commaRunStep s = some (out, rest')) :
    out = ['，'] ∧ ∀ d : Char, d ∈ rest' → d ∈ s := by
  unfold commaRunStep at h
  cases s with
  | nil => simp at h
  | cons c rest =>
    cases rest with
    | nil => simp at h
    | cons d r =>
      by_cases hc : (c == '，' && d == '，') = true
      · simp only [hc, if_true, Option.some.injEq, Prod.mk.injEq] at h
        obtain ⟨h1, h2⟩ := h
        subst h1
        subst h2
        refine ⟨rfl, fun e he => ?_⟩
        exact List.mem_cons_of_mem _ (List.mem_cons_of_mem _
          ((List.dropWhile_sublist _).subset he))
      · simp [hc] at h

theorem mem_dropTrailingWhile {c : Char} {p : Char → Bool} {l : List Char}
    (h : c ∈ dropTrailingWhile p l) : c ∈ l := by
  unfold dropTrailingWhile at h
  rw [List.mem_reverse] at h
  exact List.mem_reverse.mp ((List.dropWhile_sublist _).subset h)

theorem mem_trimJs {c : Char} {l : List Char} (h : c ∈ trimJs l) : c ∈ l := by
  unfold trimJs at h
  exact (List.dropWhile_sublist _).subset (mem_dropTrailingWhile h)

theorem mem_toDeclarativeSentence {c : Char} {text : List Char} {maxLen : Nat}
    (h : c ∈ toDeclarativeSentence text maxLen) :
    c = '。' ∨ c = '，' ∨ c = ' ' ∨ c ∈ removeSummarySymbols (normalizePunct text) := by
  have step1 : ∀ m : List Char, c ∈ (if jsEndsWith m '。' then m else m ++ ['。']) →
      c = '。' ∨ c ∈ m := by
    intro m hm
    split at hm
    · exact Or.inr hm
    · rcases List.mem_append.mp hm with hm | hm
      · exact Or.inr hm
      · simp at hm
        exact Or.inl hm
  have step2 : ∀ (L : List Char) (n : Nat),
      c ∈ (if n < L.length then dropTrailingWhile isTrailingSepChar (L.take n)
           else dropTrailingWhile isTrailingSepChar L) → c ∈ L := by
    intro L n hm
    split at hm
    · exact List.take_subset _ _ (mem_dropTrailingWhile hm)
    · exact mem_dropTrailingWhile hm
  have hM : ∀ d : Char,
      d ∈ trimJs (collapseCommaRuns (collapseSpaceRuns (joinSep '，'
        (((splitAtP isTerminatorChar (removeSummarySymbols (normalizePunct text))).map
          trimJs).filter (fun t => !t.isEmpty))))) →
      d = '，' ∨ d = ' ' ∨ d ∈ removeSummarySymbols (normalizePunct text) := by
    intro d hd
    have hd1 := mem_trimJs hd
    rcases mem_scanReplace commaRunStep_spec _ _ hd1 with h1 | h1
    · exact Or.inl h1
    rcases mem_scanReplace spaceRunStep_spec _ _ h1 with h2 | h2
    · exact Or.inr (Or.inl h2)
    rcases mem_joinSep h2 with h3 | ⟨l, hl, hc⟩
    · exact Or.inl h3
    obtain ⟨hl1, _⟩ := List.mem_filter.mp hl
    obtain ⟨l0, hl0, rfl⟩ := List.mem_map.mp hl1
    exact Or.inr (Or.inr (mem_splitAtP hl0 (mem_trimJs hc)))
  simp only [toDeclarativeSentence] at h
  rcases step1 _ h with h0 | h0
  · exact Or.inl h0
  have h1 := step2 _ _ h0
  rcases hM c h1 with h2 | h2 | h2
  · exact Or.inr (Or.inl h2)
  · exact Or.inr (Or.inr (Or.inl h2))
  · exact Or.inr (Or.inr (Or.inr h2))

theorem escapeYaml_flatten_of_no_quote : ∀ {s : List Char}, '"' ∉ s →
    (s.map (fun c => if c = '"' then ['\\', '"'] else [c])).flatten = s := by
  intro s
  induction s with
  | nil => intro _; rfl
  | cons c rest ih =>
    intro h
    have hc : ¬(c = '"') := fun e => h (List.mem_cons.mpr (Or.inl e.symm))
    have ht : '"' ∉ rest := fun m => h (List.mem_cons_of_mem _ m)
    simp only [List.map_cons, List.flatten_cons, if_neg hc, ih ht]
    rfl

theorem escapeYaml_of_no_quote {s : List Char} (h : '"' ∉ s) :
    escapeYaml s = '"' :: (s ++ ['"']) := by
  unfold escapeYaml
  rw [escapeYaml_flatten_of_no_quote h]

/-- C9 (amended): the canonicalizer output never contains a double quote or
a backslash (both removed by the decorative-symbol stage and never
reintroduced), so escapeYaml wraps it unchanged in double quotes: the
written scalar is well formed on that account even though escapeYaml never
escapes backslashes. (The output can still contain a newline, so the scalar
is single-line only for newline-free summaries; see the counterexample.) -/
theorem toDeclarativeSentence_no_quote_no_backslash (text : List Char) (maxLen : Nat) :
    '"' ∉ toDeclarativeSentence text maxLen ∧
    '\\' ∉ toDeclarativeSentence text maxLen ∧
    escapeYaml (toDeclarativeSentence text maxLen)
      = '"' :: (toDeclarativeSentence text maxLen ++ ['"']) := by
  have hq : '"' ∉ toDeclarativeSentence text maxLen := by
    intro hmem
    rcases mem_toDeclarativeSentence hmem with h | h | h | h
    · exact absurd h (by decide)
    · exact absurd h (by decide)
    · exact absurd h (by decide)
    · unfold removeSummarySymbols at h
      have h1 := (List.mem_filter.mp ((List.mem_filter.mp ((List.mem_filter.mp h).1)).1)).2
      exact absurd h1 (by decide)
  have hb : '\\' ∉ toDeclarativeSentence text maxLen := by
    intro hmem
    rcases mem_toDeclarativeSentence hmem with h | h | h | h
    · exact absurd h (by decide)
    · exact absurd h (by decide)
    · exact absurd h (by decide)
    · unfold removeSummarySymbols at h
      have h3 := (List.mem_filter.mp h).2
      exact absurd h3 (by decide)
  exact ⟨hq, hb, escapeYaml_of_no_quote hq⟩

/-- C9 (counterexample): the canonicalizer can return a summary containing a
newline (a multi-line title reaches it through the local fallback), and then
the value written by escapeYaml spans two lines, so the written scalar is
not always a single-line double-quoted scalar as the claim states. -/
theorem escapeYaml_newline_counterexample :
    toDeclarativeSentence "a\nb".toList 500 = "a\nb。".toList ∧
    '\n' ∈ escapeYaml (toDeclarativeSentence "a\nb".toList 500) := by
  decide

/-- The document on which the pipeline writes a malformed summary value: its
title line is followed by a bare continuation line, which the title regex
capture swallows together with the newline, and its body is empty. -/
def exC2doc : List Char := "---\ntitle: a\nb\n---\n".toList

/-- C2 (code bug): on this document the pipeline writes a front matter whose
summary value contains a newline. The written block then has the quoted
value split over two lines: the quoted scalar line is unterminated, and the
line immediately before the closing delimiter is not a summary key line,
contradicting the claimed invariant. -/
theorem pipeline_writes_multiline_summary :
    readTitleFromFrontmatter (splitFrontmatterAndBody exC2doc).1 = "a\nb".toList ∧
    processOneNoAPI exC2doc 8000
      = some "---\ntitle: a\nsummary: \"a\nb。\"\n---\n".toList ∧
    splitNl "---\ntitle: a\nsummary: \"a\nb。\"\n---\n".toList
      = ["---".toList, "title: a".toList, "summary: \"a".toList, "b。\"".toList,
         "---".toList, []] ∧
    isSummaryKeyLine "b。\"".toList = false ∧
    isSummaryKeyLine "summary: \"a".toList = true := by
  decide

theorem splitNl_ne_nil (s : List Char) : splitNl s ≠ [] := by
  cases s with
  | nil => simp [splitNl]
  | cons c rest =>
    rw [splitNl]
    by_cases h : c = '\n'
    · simp [h]
    · simp only [if_neg h]
      cases hs : splitNl rest with
      | nil => simp
      | cons hd tl => simp

theorem mem_splitNl_no_newline : ∀ {s l : List Char}, l ∈ splitNl s → '\n' ∉ l := by
  intro s
  induction s with
  | nil =>
    intro l hl
    simp [splitNl] at hl
    subst hl
    simp
  | cons c rest ih =>
    intro l hl
    rw [splitNl] at hl
    by_cases h : c = '\n'
    · rw [if_pos h] at hl
      rcases List.mem_cons.mp hl with rfl | hl
      · simp
      · exact ih hl
    · rw [if_neg h] at hl
      cases hs : splitNl rest with
      | nil => exact absurd hs (splitNl_ne_nil rest)
      | cons hd tl =>
        rw [hs] at hl
        rcases List.mem_cons.mp hl with rfl | hl
        · intro hmem
          rcases List.mem_cons.mp hmem with he | hmem
          · exact h he.symm
          · exact ih (by rw [hs]; exact List.mem_cons_self hd tl) hmem
        · exact ih (by rw [hs]; exact List.mem_cons_of_mem _ hl)

theorem splitNl_append_cons (a b : List Char) (ha : '\n' ∉ a) :
    splitNl (a ++ '\n' :: b) = a :: splitNl b := by
  induction a with
  | nil => simp [splitNl]
  | cons c rest ih =>
    have hc : ¬(c = '\n') := fun e => ha (List.mem_cons.mpr (Or.inl e.symm))
    have ht : '\n' ∉ rest := fun m => ha (List.mem_cons_of_mem _ m)
    rw [List.cons_append, splitNl, if_neg hc, ih ht]

theorem splitNl_no_newline (s : List Char) (h : '\n' ∉ s) : splitNl s = [s] := by
  induction s with
  | nil => rfl
  | cons c rest ih =>
    have hc : ¬(c = '\n') := fun e => h (List.mem_cons.mpr (Or.inl e.symm))
    have ht : '\n' ∉ rest := fun m => h (List.mem_cons_of_mem _ m)
    rw [splitNl, if_neg hc, ih ht]

theorem splitNl_append_newline (s : List Char) :
    splitNl (s ++ ['\n']) = splitNl s ++ [[]] := by
  induction s with
  | nil => simp [splitNl]
  | cons c rest ih =>
    by_cases h : c = '\n'
    · subst h
      rw [List.cons_append, splitNl, if_pos rfl, ih, splitNl, if_pos rfl]
      rfl
    · rw [List.cons_append, splitNl, if_neg h, ih, splitNl, if_neg h]
      cases hs : splitNl rest with
      | nil => exact absurd hs (splitNl_ne_nil rest)
      | cons hd tl => rfl

theorem joinNl_cons_cons (l l2 : List Char) (rest : List (List Char)) :
    joinNl (l :: l2 :: rest) = l ++ '\n' :: joinNl (l2 :: rest) := rfl

theorem splitNl_joinNl : ∀ (L : List (List Char)), L ≠ [] → (∀ l ∈ L, '\n' ∉ l) →
    splitNl (joinNl L) = L := by
  intro L
  induction L with
  | nil => intro h _; exact absurd rfl h
  | cons l rest ih =>
    intro _ hmem
    cases rest with
    | nil => exact splitNl_no_newline l (hmem l (List.mem_cons_self _ _))
    | cons l2 rest2 =>
      rw [joinNl_cons_cons, splitNl_append_cons _ _ (hmem l (List.mem_cons_self _ _)),
        ih (by simp) (fun x hx => hmem x (List.mem_cons_of_mem _ hx))]

theorem getLast?_cons_of_ne (c : Char) (j : List Char) (h : j ≠ []) :
    (c :: j).getLast? = j.getLast? := by
  cases j with
  | nil => exact absurd rfl h
  | cons a b => rw [List.getLast?_cons_cons]

theorem getLast?_joinNl : ∀ (L : List (List Char)) (lst : List Char),
    L.getLast? = some lst → lst ≠ [] → (joinNl L).getLast? = lst.getLast? := by
  intro L
  induction L with
  | nil => intro lst hl _; simp at hl
  | cons l rest ih =>
    intro lst hl hne
    cases rest with
    | nil =>
      have : lst = l := by simpa using hl.symm
      subst this
      rfl
    | cons l2 rest2 =>
      rw [List.getLast?_cons_cons] at hl
      have hrec := ih lst hl hne
      have hj : joinNl (l2 :: rest2) ≠ [] := by
        intro e
        rw [e] at hrec
        cases lst with
        | nil => exact hne rfl
        | cons a b =>
          have hsome := List.getLast?_isSome.mpr (show (a :: b) ≠ [] by simp)
          rw [← hrec] at hsome
          simp at hsome
      obtain ⟨y, hy⟩ := Option.isSome_iff_exists.mp (List.getLast?_isSome.mpr hne)
      rw [joinNl_cons_cons, List.getLast?_append, getLast?_cons_of_ne _ _ hj, hrec, hy,
        Option.or_some]

theorem upsertBodyLines_keep (fm : List Char) :
    ∀ l ∈ upsertBodyLines fm, keepLine l = true := by
  intro l hl
  exact (List.mem_filter.mp hl).2

theorem upsertBodyLines_no_nl (fm : List Char) :
    ∀ l ∈ upsertBodyLines fm, '\n' ∉ l := by
  intro l hl
  have h1 := (List.mem_filter.mp hl).1
  have h2 := List.take_subset _ _ h1
  have h3 := List.drop_subset _ _ h2
  exact mem_splitNl_no_newline h3

theorem no_newline_summaryLineOf {s : List Char} (h : '\n' ∉ s) :
    '\n' ∉ summaryLineOf s := by
  unfold summaryLineOf escapeYaml
  intro hmem
  rcases List.mem_append.mp hmem with hm | hm
  · exact absurd hm (by decide)
  · rcases List.mem_cons.mp hm with he | hm
    · exact absurd he (by decide)
    · rcases List.mem_append.mp hm with hm | hm
      · rcases List.mem_flatten.mp hm with ⟨l, hl, hc⟩
        rcases List.mem_map.mp hl with ⟨c0, hc0, rfl⟩
        by_cases he : c0 = '"'
        · rw [if_pos he] at hc
          exact absurd hc (by decide)
        · rw [if_neg he] at hc
          rcases List.mem_cons.mp hc with he2 | hc2
          · exact h (he2 ▸ hc0)
          · exact absurd hc2 (by simp)
      · exact absurd hm (by decide)

theorem upsert_eq_joinNl (fm s : List Char) (hfm : fm.isEmpty = false) :
    upsertSummaryInFrontmatter fm s
      = joinNl ("---".toList :: (upsertBodyLines fm ++ [summaryLineOf s, "---".toList]))
        ++ ['\n'] := by
  have hshape : "---".toList :: (upsertBodyLines fm ++ [summaryLineOf s, "---".toList])
      = ("---".toList :: upsertBodyLines fm ++ [summaryLineOf s]) ++ ["---".toList] := by
    simp
  have hlast :
      (joinNl ("---".toList ::
        (upsertBodyLines fm ++ [summaryLineOf s, "---".toList]))).getLast? = some '-' := by
    rw [getLast?_joinNl _ "---".toList ?_ (by decide)]
    · rfl
    · rw [hshape]
      exact List.getLast?_concat _
  have hend : jsEndsWith (joinNl ("---".toList ::
      (upsertBodyLines fm ++ [summaryLineOf s, "---".toList]))) '\n' = false := by
    unfold jsEndsWith
    rw [hlast]
    rfl
  simp only [upsertSummaryInFrontmatter, hfm, Bool.false_eq_true, if_false, hend]

theorem upsert_structure (fm s : List Char) :
    ∃ kept : List (List Char),
      (∀ l ∈ kept, keepLine l = true) ∧ (∀ l ∈ kept, '\n' ∉ l) ∧
      upsertSummaryInFrontmatter fm s
        = joinNl ("---".toList :: (kept ++ [summaryLineOf s, "---".toList])) ++ ['\n'] := by
  by_cases hfm : fm.isEmpty = true
  · refine ⟨[], by simp, by simp, ?_⟩
    unfold upsertSummaryInFrontmatter
    rw [if_pos hfm]
    show "---\n".toList ++ summaryLineOf s ++ "\n---\n".toList = _
    have e1 : "---\n".toList = '-' :: '-' :: '-' :: ['\n'] := rfl
    have e2 : "\n---\n".toList = '\n' :: ('-' :: '-' :: '-' :: ['\n']) := rfl
    have e3 : joinNl ("---".toList :: ([] ++ [summaryLineOf s, "---".toList]))
        = "---".toList ++ '\n' :: (summaryLineOf s ++ '\n' :: "---".toList) := rfl
    have e4 : "---".toList = ['-', '-', '-'] := rfl
    rw [e1, e2, e3, e4]
    simp [List.append_assoc]
  · have hfm2 : fm.isEmpty = false := by simpa using hfm
    exact ⟨upsertBodyLines fm, upsertBodyLines_keep fm, upsertBodyLines_no_nl fm,
      upsert_eq_joinNl fm s hfm2⟩

theorem dropTrailingWhile_append_of (p : Char → Bool) (l : List Char) :
    ∃ t, l = dropTrailingWhile p l ++ t := by
  refine ⟨(l.reverse.takeWhile p).reverse, ?_⟩
  unfold dropTrailingWhile
  rw [← List.reverse_append, List.takeWhile_append_dropWhile, List.reverse_reverse]

theorem trimJs_head_ne_dashes {c : Char} {tail : List Char}
    (hsp : isJsSpace c = false) (hc : c ≠ '-') :
    (trimJs (c :: tail) == "---".toList) = false := by
  rw [beq_eq_false_iff_ne]
  intro he
  have hdw : (c :: tail).dropWhile isJsSpace = c :: tail := by
    rw [List.dropWhile_cons, if_neg (by simp [hsp])]
  have hstep : trimJs (c :: tail) = dropTrailingWhile isJsSpace (c :: tail) := by
    unfold trimJs
    rw [hdw]
  obtain ⟨t, ht⟩ := dropTrailingWhile_append_of isJsSpace (c :: tail)
  rw [← hstep, he] at ht
  exact hc (List.cons.inj ht).1

theorem isSummaryKeyLine_summaryLineOf (s : List Char) :
    isSummaryKeyLine (summaryLineOf s) = true := rfl

theorem keepLine_summaryLineOf (s : List Char) : keepLine (summaryLineOf s) = false := rfl

theorem trimJs_summaryLineOf_ne (s : List Char) :
    (trimJs (summaryLineOf s) == "---".toList) = false := by
  have e : summaryLineOf s = 's' :: ("ummary: ".toList ++ escapeYaml s) := rfl
  rw [e]
  exact trimJs_head_ne_dashes (by decide) (by decide)

theorem all_dropWhile_nil {l : List Char} (h : l.all isJsSpace = true) :
    l.dropWhile isJsSpace = [] := by
  induction l with
  | nil => rfl
  | cons c rest ih =>
    rw [List.all_cons, Bool.and_eq_true] at h
    rw [List.dropWhile_cons, if_pos (by simp [h.1])]
    exact ih h.2

theorem keepLine_trim_ne_dashes {l : List Char} (hk : keepLine l = true) :
    (trimJs l == "---".toList) = false := by
  rw [beq_eq_false_iff_ne]
  intro he
  obtain ⟨t, ht⟩ := dropTrailingWhile_append_of isJsSpace (l.dropWhile isJsSpace)
  have hstep : dropTrailingWhile isJsSpace (l.dropWhile isJsSpace) = trimJs l := rfl
  rw [hstep, he] at ht
  have ht2 : l.dropWhile isJsSpace = '-' :: '-' :: '-' :: t := ht
  unfold keepLine at hk
  split at hk
  · exact absurd hk (by simp)
  · split at hk
    · exact absurd hk (by simp)
    · simp only [Bool.or_eq_true] at hk
      rcases hk with ((hkey | hitem) | hcom) | hblank
      · unfold isYamlKeyLine at hkey
        rw [ht2] at hkey
        have hcond : (isAsciiLetterChar '-' || ('-' == '_')) = false := by decide
        simp [hcond] at hkey
        exact absurd hkey.1 (by decide)
      · unfold isYamlListItemLine at hitem
        rw [ht2] at hitem
        have hsp : isJsSpace '-' = false := by decide
        simp [List.takeWhile_cons, hsp] at hitem
      · unfold isYamlCommentLine at hcom
        rw [ht2] at hcom
        simp at hcom
      · unfold isBlankLine at hblank
        have := all_dropWhile_nil hblank
        rw [ht2] at this
        exact absurd this (by simp)

theorem findDelimGo_skip : ∀ (xs : List (List Char)) (i : Nat) (rest : List (List Char)),
    (∀ l ∈ xs, (trimJs l == "---".toList) = false) →
    findDelimGo i (xs ++ rest) = findDelimGo (i + xs.length) rest := by
  intro xs
  induction xs with
  | nil => intro i rest _; simp
  | cons x xs2 ih =>
    intro i rest hx
    rw [List.cons_append, findDelimGo, hx x (List.mem_cons_self _ _), Bool.and_false,
      if_neg (by simp)]
    rw [ih (i + 1) rest (fun l hl => hx l (List.mem_cons_of_mem _ hl))]
    congr 1
    simp
    omega

theorem upsertBodyLines_of_upserted (K : List (List Char)) (s : List Char)
    (h : '\n' ∉ s) (hK : ∀ l ∈ K, keepLine l = true) (hKn : ∀ l ∈ K, '\n' ∉ l) :
    upsertBodyLines
        (joinNl ("---".toList :: (K ++ [summaryLineOf s, "---".toList])) ++ ['\n'])
      = K := by
  have hL : ∀ l ∈ ("---".toList :: (K ++ [summaryLineOf s, "---".toList])), '\n' ∉ l := by
    intro l hl
    rcases List.mem_cons.mp hl with rfl | hl
    · decide
    rcases List.mem_append.mp hl with hl | hl
    · exact hKn l hl
    rcases List.mem_cons.mp hl with rfl | hl
    · exact no_newline_summaryLineOf h
    rcases List.mem_cons.mp hl with rfl | hl
    · decide
    · simp at hl
  have hsplit :
      splitNl (joinNl ("---".toList :: (K ++ [summaryLineOf s, "---".toList])) ++ ['\n'])
        = "---".toList :: (K ++ [summaryLineOf s, "---".toList, []]) := by
    rw [splitNl_append_newline, splitNl_joinNl _ (by simp) hL]
    simp
  have hfind : findDelimGo 0 ("---".toList :: (K ++ [summaryLineOf s, "---".toList, []]))
      = some (K.length + 2) := by
    rw [findDelimGo, if_neg (by simp)]
    rw [findDelimGo_skip K 1 _ (fun l hl => keepLine_trim_ne_dashes (hK l hl))]
    rw [findDelimGo, trimJs_summaryLineOf_ne s, Bool.and_false, if_neg (by simp)]
    rw [findDelimGo,
      if_pos (show (decide (0 < 1 + K.length + 1)
          && (trimJs "---".toList == "---".toList)) = true by
        rw [show (trimJs "---".toList == "---".toList) = true from by decide, Bool.and_true]
        exact decide_eq_true (by omega))]
    congr 1
    omega
  simp only [upsertBodyLines]
  rw [hsplit, hfind]
  have hgetd : (some (K.length + 2)).getD
      ("---".toList :: (K ++ [summaryLineOf s, "---".toList, []])).length = K.length + 2 := rfl
  rw [hgetd]
  have hdrop : ("---".toList :: (K ++ [summaryLineOf s, "---".toList, []])).drop 1
      = K ++ [summaryLineOf s, "---".toList, []] := rfl
  rw [hdrop]
  have htake : (K ++ [summaryLineOf s, "---".toList, []]).take (K.length + 2 - 1)
      = K ++ [summaryLineOf s] := by
    have h21 : K.length + 2 - 1 = K.length + 1 := rfl
    rw [h21, List.take_append_eq_append_take, List.take_of_length_le (by omega)]
    have h1 : K.length + 1 - K.length = 1 := by omega
    rw [h1]
    rfl
  rw [htake, List.filter_append, List.filter_eq_self.mpr ?_]
  · have hf : [summaryLineOf s].filter keepLine = [] := by
      simp [List.filter, keepLine_summaryLineOf]
    rw [hf, List.append_nil]
  · intro a ha
    exact hK a ha

/-- C3 (amended): the summary upsert is idempotent for every front-matter
block and every newline-free summary string (which pipeline summaries
normally are): applying it twice with the same summary gives the same block
as applying it once, with no duplicate summary lines or closing delimiters. -/
theorem upsert_idempotent (fm s : List Char) (h : '\n' ∉ s) :
    upsertSummaryInFrontmatter (upsertSummaryInFrontmatter fm s) s
      = upsertSummaryInFrontmatter fm s := by
  obtain ⟨K, hK, hKn, hr⟩ := upsert_structure fm s
  rw [hr]
  have hne : (joinNl ("---".toList :: (K ++ [summaryLineOf s, "---".toList]))
      ++ ['\n']).isEmpty = false := by
    simp
  rw [upsert_eq_joinNl _ s hne, upsertBodyLines_of_upserted K s h hK hKn]

/-- C3 (witness): idempotence at a concrete block and summary. -/
theorem upsert_idempotent_witness :
    ('\n' ∉ "ok。".toList) ∧
    upsertSummaryInFrontmatter
        (upsertSummaryInFrontmatter "---\ntitle: x\n---".toList "ok。".toList)
        "ok。".toList
      = upsertSummaryInFrontmatter "---\ntitle: x\n---".toList "ok。".toList :=
  ⟨by decide, upsert_idempotent "---\ntitle: x\n---".toList "ok。".toList (by decide)⟩

/-- C3 (counterexample): with a summary containing a newline the upsert is
not idempotent: the spilled second line of the quoted value survives the
second pass as a YAML key line and is kept ahead of the fresh summary line. -/
theorem upsert_not_idempotent_on_newline :
    upsertSummaryInFrontmatter (upsertSummaryInFrontmatter [] "x\ntitle: y".toList)
        "x\ntitle: y".toList
      ≠ upsertSummaryInFrontmatter [] "x\ntitle: y".toList := by
  decide

/-- The rejoin of a split document: the body alone when there is no front
matter, otherwise the block, one separating newline, and the body. -/
def rejoinDoc (fm body : List Char) : List Char :=
  if fm.isEmpty then body else fm ++ '\n' :: body

theorem closeAt_spec : ∀ {s cl t : List Char}, closeAt s = some (cl, t) →
    s = cl ++ t ∧ lookaheadOk t = true := by
  intro s cl t h
  unfold closeAt at h
  split at h
  · split at h
    · next hla =>
      simp only [Option.some.injEq, Prod.mk.injEq] at h
      obtain ⟨hcl, ht⟩ := h
      subst hcl
      subst ht
      exact ⟨rfl, hla⟩
    · exact absurd h (by simp)
  · split at h
    · next hla =>
      simp only [Option.some.injEq, Prod.mk.injEq] at h
      obtain ⟨hcl, ht⟩ := h
      subst hcl
      subst ht
      exact ⟨rfl, hla⟩
    · exact absurd h (by simp)
  · exact absurd h (by simp)

theorem fmFindCloseGo_spec : ∀ (fuel : Nat) (s m t : List Char),
    fmFindCloseGo fuel s = some (m, t) → s = m ++ t ∧ lookaheadOk t = true := by
  intro fuel
  induction fuel with
  | zero =>
    intro s m t h
    cases s with
    | nil => simp [fmFindCloseGo] at h
    | cons c rest => simp [fmFindCloseGo] at h
  | succ n ih =>
    intro s m t h
    cases s with
    | nil => simp [fmFindCloseGo] at h
    | cons c rest =>
      rw [fmFindCloseGo] at h
      cases hc : closeAt (c :: rest) with
      | some p =>
        rw [hc] at h
        obtain ⟨cl, t'⟩ := p
        simp only [Option.some.injEq, Prod.mk.injEq] at h
        obtain ⟨hcl, ht⟩ := h
        subst hcl
        subst ht
        exact closeAt_spec hc
      | none =>
        rw [hc] at h
        cases hgo : fmFindCloseGo n rest with
        | none => rw [hgo] at h; simp at h
        | some q =>
          rw [hgo] at h
          obtain ⟨m', t'⟩ := q
          simp only [Option.map_some', Option.some.injEq, Prod.mk.injEq] at h
          obtain ⟨hm, htt⟩ := h
          subst hm
          subst htt
          obtain ⟨ha, hb⟩ := ih rest m' t' hgo
          exact ⟨by rw [List.cons_append, ← ha], hb⟩

theorem fmMatch_spec : ∀ {s f t : List Char}, fmMatch s = some (f, t) →
    s = f ++ t ∧ lookaheadOk t = true ∧ f ≠ [] := by
  intro s f t h
  unfold fmMatch at h
  split at h
  · cases hgo : fmFindCloseGo _ _ with
    | none => rw [hgo] at h; simp at h
    | some q =>
      rw [hgo] at h
      obtain ⟨m, t'⟩ := q
      simp only [Option.map_some', Option.some.injEq, Prod.mk.injEq] at h
      obtain ⟨hf, ht⟩ := h
      subst hf
      subst ht
      obtain ⟨ha, hb⟩ := fmFindCloseGo_spec _ _ _ _ hgo
      refine ⟨?_, hb, by simp⟩
      simp [ha]
  · cases hgo : fmFindCloseGo _ _ with
    | none => rw [hgo] at h; simp at h
    | some q =>
      rw [hgo] at h
      obtain ⟨m, t'⟩ := q
      simp only [Option.map_some', Option.some.injEq, Prod.mk.injEq] at h
      obtain ⟨hf, ht⟩ := h
      subst hf
      subst ht
      obtain ⟨ha, hb⟩ := fmFindCloseGo_spec _ _ _ _ hgo
      refine ⟨?_, hb, by simp⟩
      simp [ha]
  · exact absurd h (by simp)

theorem takeWhile_eq_replicate_newline (l : List Char) :
    l.takeWhile (fun c => c == '\n')
      = List.replicate (l.takeWhile (fun c => c == '\n')).length '\n' := by
  induction l with
  | nil => rfl
  | cons c rest ih =>
    rw [List.takeWhile_cons]
    by_cases h : (c == '\n') = true
    · rw [if_pos h]
      have hc : c = '\n' := by simpa using h
      subst hc
      rw [List.length_cons, List.replicate_succ, ← ih]
    · rw [if_neg h]
      rfl

theorem head_dropWhile_false {p : Char → Bool} : ∀ {l : List Char} {a : Char},
    (l.dropWhile p).head? = some a → p a = false := by
  intro l
  induction l with
  | nil => intro a h; simp [List.dropWhile] at h
  | cons c rest ih =>
    intro a h
    rw [List.dropWhile_cons] at h
    by_cases hc : p c = true
    · rw [if_pos hc] at h
      exact ih h
    · rw [if_neg hc] at h
      simp only [List.head?_cons, Option.some.injEq] at h
      subst h
      exact Bool.eq_false_iff.mpr hc

/-- C4 (amended): for a document with no byte-order mark or leading
whitespace, no carriage returns, and at most one front-matter block:
with no block, splitting returns the document unchanged as the body and the
rejoin is the document byte-for-byte; with one block, the document is the
block, some run of newlines, and the body, and the rejoin reproduces it
byte-for-byte except that this newline run is normalized to exactly one. -/
theorem split_rejoin (content : List Char)
    (h1 : trimStartJs (stripBOM content) = content)
    (h2 : '\r' ∉ content)
    (h3 : ∀ f t, fmMatch content = some (f, t) → fmMatch t = none) :
    ((splitFrontmatterAndBody content).1 = [] ∧
      rejoinDoc (splitFrontmatterAndBody content).1 (splitFrontmatterAndBody content).2
        = content) ∨
    (∃ k, content
        = (splitFrontmatterAndBody content).1 ++ List.replicate k '\n'
          ++ (splitFrontmatterAndBody content).2 ∧
      rejoinDoc (splitFrontmatterAndBody content).1 (splitFrontmatterAndBody content).2
        = (splitFrontmatterAndBody content).1 ++ List.replicate 1 '\n'
          ++ (splitFrontmatterAndBody content).2 ∧
      (splitFrontmatterAndBody content).2.head? ≠ some '\n') := by
  cases hm : fmMatch content with
  | none =>
    have hsplit : splitFrontmatterAndBody content = ([], content) := by
      simp only [splitFrontmatterAndBody, h1, hm]
    rw [hsplit]
    exact Or.inl ⟨rfl, rfl⟩
  | some p =>
    obtain ⟨f, t⟩ := p
    have hnone := h3 f t hm
    have hsplit : splitFrontmatterAndBody content = (f, stripLeadNl t) := by
      simp only [splitFrontmatterAndBody, h1, hm, hnone]
    obtain ⟨happ, hla, hfne⟩ := fmMatch_spec hm
    have hrt : '\r' ∉ t := by
      intro hr
      apply h2
      rw [happ]
      exact List.mem_append_right f hr
    have ht0 : t = [] ∨ ∃ t', t = '\n' :: t' := by
      cases t with
      | nil => exact Or.inl rfl
      | cons c rest =>
        by_cases hc : c = '\n'
        · exact Or.inr ⟨rest, by rw [hc]⟩
        · exfalso
          unfold lookaheadOk at hla
          split at hla
          · next heq => simp at heq
          · next heq => exact hc (List.cons.inj heq).1
          · next heq =>
            apply hrt
            rw [(List.cons.inj heq).1]
            exact List.mem_cons_self _ _
          · simp at hla
    have hsl : stripLeadNl t = t.dropWhile (fun c => c == '\n') := by
      rcases ht0 with rfl | ⟨t', rfl⟩
      · rfl
      · rfl
    have hne : f.isEmpty = false := by
      cases f with
      | nil => exact absurd rfl hfne
      | cons a b => rfl
    rw [hsplit]
    right
    refine ⟨(t.takeWhile (fun c => c == '\n')).length, ?_, ?_, ?_⟩
    · show content = f ++ _ ++ stripLeadNl t
      rw [happ, hsl, ← takeWhile_eq_replicate_newline, List.append_assoc,
        List.takeWhile_append_dropWhile]
    · show rejoinDoc f (stripLeadNl t) = f ++ List.replicate 1 '\n' ++ stripLeadNl t
      simp [rejoinDoc, hne]
    · show (stripLeadNl t).head? ≠ some '\n'
      rw [hsl]
      intro hh
      have := head_dropWhile_false hh
      simp at this

/-- The document used to witness the split-and-rejoin theorem. -/
def exC4doc : List Char := "---\na: b\n---\n\nbody".toList

/-- C4 (witness): the amended round trip at a concrete document with one
block and two newlines after the closing delimiter. -/
theorem split_rejoin_witness :
    (trimStartJs (stripBOM exC4doc) = exC4doc) ∧ ('\r' ∉ exC4doc) ∧
    (∀ f t, fmMatch exC4doc = some (f, t) → fmMatch t = none) ∧
    (((splitFrontmatterAndBody exC4doc).1 = [] ∧
      rejoinDoc (splitFrontmatterAndBody exC4doc).1 (splitFrontmatterAndBody exC4doc).2
        = exC4doc) ∨
     (∃ k, exC4doc
        = (splitFrontmatterAndBody exC4doc).1 ++ List.replicate k '\n'
          ++ (splitFrontmatterAndBody exC4doc).2 ∧
      rejoinDoc (splitFrontmatterAndBody exC4doc).1 (splitFrontmatterAndBody exC4doc).2
        = (splitFrontmatterAndBody exC4doc).1 ++ List.replicate 1 '\n'
          ++ (splitFrontmatterAndBody exC4doc).2 ∧
      (splitFrontmatterAndBody exC4doc).2.head? ≠ some '\n')) := by
  have h3 : ∀ f t, fmMatch exC4doc = some (f, t) → fmMatch t = none := by
    intro f t h
    have he : fmMatch exC4doc = some ("---\na: b\n---".toList, "\n\nbody".toList) := by
      decide
    rw [he] at h
    simp only [Option.some.injEq, Prod.mk.injEq] at h
    obtain ⟨hf, ht⟩ := h
    subst ht
    decide
  exact ⟨by decide, by decide, h3, split_rejoin exC4doc (by decide) (by decide) h3⟩

/-- C4 (counterexample): a document consisting of a space and a letter:
splitting strips the leading space and rejoining cannot restore it, a
difference that is not a trailing-newline-count normalization (the two
sides differ even after deleting every newline). -/
theorem split_rejoin_counterexample :
    splitFrontmatterAndBody " x".toList = ([], "x".toList) ∧
    rejoinDoc ([] : List Char) "x".toList = "x".toList ∧
    (" x".toList.filter (fun c => !(c == '\n')))
      ≠ ("x".toList.filter (fun c => !(c == '\n'))) := by
  decide

end GenSummary

